import Mathlib

/-!
Verification of the argument-resolution pipeline of the vsd repository
(src/args/save.rs and src/commands/save.rs).

The Rust functions are shallowly embedded over `List Char` (a Rust `str`
value as its list of characters).  Filesystem probing is embedded as an
explicit predicate `fs : List Char → Bool` saying which paths exist, and
the unbounded probe loop of the args version of `tempfile` is driven by
fuel, with fuel exhaustion reported explicitly.
-/

set_option maxHeartbeats 1000000

namespace Vsd

instance {ε α : Type} [DecidableEq ε] [DecidableEq α] : DecidableEq (Except ε α) := fun x y =>
  match x, y with
  | .ok a, .ok b =>
    if h : a = b then isTrue (h ▸ rfl) else isFalse (fun hh => h (Except.ok.inj hh))
  | .error a, .error b =>
    if h : a = b then isTrue (h ▸ rfl) else isFalse (fun hh => h (Except.error.inj hh))
  | .ok _, .error _ => isFalse (fun hh => Except.noConfusion hh)
  | .error _, .ok _ => isFalse (fun hh => Except.noConfusion hh)

/-- Rust `s.split('?').next().unwrap()`: the part of the string before the
first `'?'` (the whole string when there is none).  Total: `split` always
yields at least one piece. -/
def stripQuery (s : List Char) : List Char := s.takeWhile (fun c => c ≠ '?')

/-- Rust `s.split('/').last().unwrap()`: the part after the last `'/'`
(the whole string when there is none). -/
def lastSegment (s : List Char) : List Char :=
  (s.reverse.takeWhile (fun c => c ≠ '/')).reverse

/-- The character replacement applied by the fallback branch of
`Save::tempfile`: each of `< > : " / \ | ?` becomes `-`. -/
def sanitizeChar (c : Char) : Char :=
  if c = '<' ∨ c = '>' ∨ c = ':' ∨ c = '\"' ∨ c = '/' ∨ c = '\\' ∨ c = '|' ∨ c = '?'
  then '-' else c

/-- The sanitization of the fallback branch of `Save::tempfile`.  The
source's successive `str::replace` calls amount to this single character
map, since the replacement `-` is not itself among the replaced
characters. -/
def sanitize (s : List Char) : List Char := s.map sanitizeChar

/-- Everything before the last `'.'` of the list (meaningful when a `'.'`
occurs). -/
def beforeLastDot (s : List Char) : List Char :=
  ((s.reverse.dropWhile (fun c => c ≠ '.')).drop 1).reverse

/-- Everything after the last `'.'` of the list. -/
def afterLastDot (s : List Char) : List Char :=
  (s.reverse.takeWhile (fun c => c ≠ '.')).reverse

/-- Model of Rust `Path::set_extension ext` (with `ext` nonempty) on a
single-component path: a no-op when `file_name()` is `None` (the empty
path, `.` and `..`); a file name whose only `.` is its leading character
has no extension, so the new one is appended; otherwise everything after
the last `.` is replaced. -/
def rustSetExtension (s ext : List Char) : List Char :=
  if s = [] ∨ s = ['.'] ∨ s = ['.', '.'] then s
  else if '.' ∈ s.drop 1 then beforeLastDot s ++ '.' :: ext
  else s ++ '.' :: ext

/-- Model of Rust `Path::file_stem` on a single-component path. -/
def rustFileStem (s : List Char) : Option (List Char) :=
  if s = [] ∨ s = ['.'] ∨ s = ['.', '.'] then none
  else if '.' ∈ s.drop 1 then some (beforeLastDot s)
  else some s

/-- Model of Rust `Path::extension` on a single-component path. -/
def rustExtension (s : List Char) : Option (List Char) :=
  if s = [] ∨ s = ['.'] ∨ s = ['.', '.'] then none
  else if '.' ∈ s.drop 1 then some (afterLastDot s)
  else none

/-- Fuel-driven model of Rust `str::trim_end_matches(pat)`: repeatedly
removes the suffix `pat` while it is present (and is a no-op for the empty
pattern, as in Rust). -/
def trimEndAux (pat : List Char) : Nat → List Char → List Char
  | 0, s => s
  | fuel + 1, s =>
    if pat ≠ [] ∧ pat.isSuffixOf s then trimEndAux pat fuel (s.take (s.length - pat.length))
    else s

/-- Rust `s.trim_end_matches(pat)`; `s.length` is enough fuel since every
removal shortens the string. -/
def trimEndMatches (s pat : List Char) : List Char := trimEndAux pat s.length s

/-- Fuel-driven model of Rust `str::trim_start_matches(pat)` for a string
pattern. -/
def trimStartAux (pat : List Char) : Nat → List Char → List Char
  | 0, s => s
  | fuel + 1, s =>
    if pat ≠ [] ∧ pat.isPrefixOf s then trimStartAux pat fuel (s.drop pat.length)
    else s

/-- Rust `s.trim_start_matches(pat)`. -/
def trimStartMatches (s pat : List Char) : List Char := trimStartAux pat s.length s

/-- The decimal rendering of a natural number, as characters. -/
def natDecimal (n : Nat) : List Char := (Nat.repr n).toList

/-- The collision-probe file name `"<stem> (<n>).<ext>"` built by
`format!` in src/args/save.rs. -/
def candName (stem ext : List Char) (n : Nat) : List Char :=
  stem ++ " (".toList ++ natDecimal n ++ ").".toList ++ ext

/-- The unbounded `for i in 1..` probe loop of src/args/save.rs, cut off by
fuel (`none` models the loop running beyond the fuel). -/
def probeFirstFree (fs : List Char → Bool) (stem ext : List Char) : Nat → Nat → Option (List Char)
  | 0, _ => none
  | fuel + 1, i =>
    if fs (candName stem ext i) then probeFirstFree fs stem ext fuel (i + 1)
    else some (candName stem ext i)

/-- The `InputType` enum of src/commands/save.rs. -/
inductive InputType
  | HlsUrl
  | DashUrl
  | Website
  | HlsLocalFile
  | DashLocalFile
  | LocalFile
deriving DecidableEq

/-- Outcome of the args-side `tempfile`: a returned name, a panic (an
`unwrap` of `None`), or fuel exhaustion of the unbounded probe loop. -/
inductive TfOut
  | ok (name : List Char)
  | panicked
  | outOfFuel
deriving DecidableEq

namespace CommandsSave

/-- Model of `Save::tempfile` from src/commands/save.rs: strip the query
string, take the final path segment, then rewrite by suffix class: `.m3u`
and `.m3u8` playlists become `.ts` (with a `.ts.m3u8` compound suffix
having only its `.m3u8` tail trimmed), `.mpd` and `.xml` manifests become
`.m4s`, and anything else is sanitized and given extension `.mp4`. -/
def tempfile (input : List Char) : List Char :=
  if ".m3u".toList <:+ lastSegment (stripQuery input) ∨
      ".m3u8".toList <:+ lastSegment (stripQuery input) then
    if ".ts.m3u8".toList <:+ lastSegment (stripQuery input) then
      trimEndMatches (lastSegment (stripQuery input)) (".m3u8".toList)
    else rustSetExtension (lastSegment (stripQuery input)) ("ts".toList)
  else if ".mpd".toList <:+ lastSegment (stripQuery input) ∨
      ".xml".toList <:+ lastSegment (stripQuery input) then
    rustSetExtension (lastSegment (stripQuery input)) ("m4s".toList)
  else rustSetExtension (sanitize (lastSegment (stripQuery input))) ("mp4".toList)

/-- Model of `Save::input_type` from src/commands/save.rs: classify the
query-stripped input by suffix, an `http` prefix selecting the URL
variants. -/
def input_type (input : List Char) : InputType :=
  if "http".toList <+: stripQuery input then
    if ".m3u".toList <:+ stripQuery input ∨ ".m3u8".toList <:+ stripQuery input ∨
        "ts.m3u8".toList <:+ stripQuery input then .HlsUrl
    else if ".mpd".toList <:+ stripQuery input ∨ ".xml".toList <:+ stripQuery input then .DashUrl
    else .Website
  else
    if ".m3u".toList <:+ stripQuery input ∨ ".m3u8".toList <:+ stripQuery input ∨
        "ts.m3u8".toList <:+ stripQuery input then .HlsLocalFile
    else if ".mpd".toList <:+ stripQuery input ∨ ".xml".toList <:+ stripQuery input then .DashLocalFile
    else .LocalFile

end CommandsSave

namespace ArgsSave

/-- The pure naming computation of `Save::tempfile` from src/args/save.rs
(lines 200-236), textually identical to the src/commands/save.rs
version. -/
def tempfileOutput (input : List Char) : List Char :=
  if ".m3u".toList <:+ lastSegment (stripQuery input) ∨
      ".m3u8".toList <:+ lastSegment (stripQuery input) then
    if ".ts.m3u8".toList <:+ lastSegment (stripQuery input) then
      trimEndMatches (lastSegment (stripQuery input)) (".m3u8".toList)
    else rustSetExtension (lastSegment (stripQuery input)) ("ts".toList)
  else if ".mpd".toList <:+ lastSegment (stripQuery input) ∨
      ".xml".toList <:+ lastSegment (stripQuery input) then
    rustSetExtension (lastSegment (stripQuery input)) ("m4s".toList)
  else rustSetExtension (sanitize (lastSegment (stripQuery input))) ("mp4".toList)

/-- Model of `Save::tempfile` from src/args/save.rs.  `fs` says which paths
exist.  When the computed name exists and the session is not being resumed,
the source unwraps `file_stem()` and `extension()` of the computed name
(panicking when either is `None`) and probes `"<stem> (<n>).<ext>"` for
n = 1, 2, ... until an unused name is found. -/
def tempfile (fs : List Char → Bool) (resume : Bool) (fuel : Nat) (input : List Char) : TfOut :=
  let output := tempfileOutput input
  if fs output && !resume then
    match rustFileStem output, rustExtension output with
    | some stem, some ext =>
      match probeFirstFree fs stem ext fuel 1 with
      | some name => .ok name
      | none => .outOfFuel
    | _, _ => .panicked
  else .ok output

end ArgsSave

/-- Errors of the embedded `get_url`. -/
inductive UrlErr
  | missingBaseurl
  | badUrl
deriving DecidableEq

/-- Minimal model of a parsed `reqwest::Url` for absolute authority-based
URLs: scheme, authority and an absolute path. -/
structure UrlM where
  scheme : List Char
  authority : List Char
  path : List Char
deriving DecidableEq

/-- Minimal model of `Url::parse`: requires `scheme "://" authority
[path]`; a string without a scheme fails (Rust's relative-URL-without-base
error), and non-authority URLs are outside the model. -/
def urlParse (s : List Char) : Except UrlErr UrlM :=
  let scheme := s.takeWhile Char.isAlpha
  if scheme ≠ [] ∧ (s.drop scheme.length).head? = some ':' then
    let after := s.drop (scheme.length + 1)
    if "//".toList.isPrefixOf after then
      let hostpath := after.drop 2
      let auth := hostpath.takeWhile (fun c => c ≠ '/')
      let path := hostpath.dropWhile (fun c => c ≠ '/')
      .ok ⟨scheme, auth, if path = [] then "/".toList else path⟩
    else .error .badUrl
  else .error .badUrl

/-- Minimal model of `Url::join` with a relative reference: an absolute
path replaces the whole path, anything else replaces the final path
segment (dot-segment normalization is outside the model). -/
def urlJoin (m : UrlM) (uri : List Char) : UrlM :=
  if "/".toList.isPrefixOf uri then { m with path := uri }
  else { m with path := (m.path.reverse.dropWhile (fun c => c ≠ '/')).reverse ++ uri }

/-- Serialization of the URL model. -/
def urlString (m : UrlM) : List Char :=
  m.scheme ++ "://".toList ++ m.authority ++ m.path

/-- Composition `Url::parse(base)?.join(uri)?.to_string()`. -/
def parseAndJoin (base uri : List Char) : Except UrlErr (List Char) :=
  match urlParse base with
  | .ok m => .ok (urlString (urlJoin m uri))
  | .error e => .error e

/-- Model of `Save::get_url` (identical in src/args/save.rs lines 183-198
and src/commands/save.rs lines 286-301): an absolute (http-prefixed)
segment uri is returned unchanged; otherwise it is joined against the
baseurl option when present; otherwise, when the input is not absolute
either, the run fails naming the missing baseurl option, and when it is,
the uri is joined against the input. -/
def get_url (baseurl : Option (List Char)) (input uri : List Char) : Except UrlErr (List Char) :=
  if "http".toList <+: uri then .ok uri
  else
    match baseurl with
    | some b => parseAndJoin b uri
    | none =>
      if ¬("http".toList <+: input) then .error .missingBaseurl
      else parseAndJoin input uri

/-- Characters accepted in a reqwest `HeaderName` (the RFC 7230 token
alphabet, modeled without the quote characters). -/
def isHeaderNameChar (c : Char) : Bool :=
  c.isAlphanum || c = '-' || c = '_' || c = '!' || c = '#' || c = '$' || c = '%' ||
  c = '&' || c = '*' || c = '+' || c = '.' || c = '^' || c = '|' || c = '~'

/-- Characters accepted in a reqwest `HeaderValue` (visible ASCII, space
and tab). -/
def isHeaderValueChar (c : Char) : Bool :=
  c = '\t' || (32 ≤ c.toNat && c.toNat ≤ 126)

/-- Model of `HeaderName::from_str`: nonempty token characters, lowercased. -/
def parseHeaderName (l : List Char) : Except Unit (List Char) :=
  if l ≠ [] ∧ l.all isHeaderNameChar then .ok (l.map Char.toLower) else .error ()

/-- Model of `HeaderValue::from_str`. -/
def parseHeaderValue (l : List Char) : Except Unit (List Char) :=
  if l.all isHeaderValueChar then .ok l else .error ()

/-- Model of `HeaderMap::insert`: replaces any existing entry for the name. -/
def insertHeader (hs : List (List Char × List Char)) (n v : List Char) :
    List (List Char × List Char) :=
  hs.filter (fun e => !(e.1 == n)) ++ [(n, v)]

/-- The indices visited by `(0..n).step_by(2)`. -/
def stepBy2 (n : Nat) : List Nat := (List.range n).filter (fun i => i % 2 == 0)

/-- Model of the default-header installation in `Save::client` (identical
in src/args/save.rs lines 145-156 and src/commands/save.rs lines 258-269).
When the header option list is nonempty, the source builds `headers` as a
fresh empty `HeaderMap` and then iterates
`for i in (0..headers.len()).step_by(2)`, reading `self.header[i]` and
`self.header[i + 1]` and propagating their parse failures; note that the
loop bound is the length of the freshly created empty map. -/
def clientDefaultHeaders (header : List (List Char)) :
    Except Unit (List (List Char × List Char)) :=
  if header = [] then .ok []
  else
    let headers0 : List (List Char × List Char) := []
    (stepBy2 headers0.length).foldlM
      (fun hs i => do
        let n ← parseHeaderName (header.getD i [])
        let v ← parseHeaderValue (header.getD (i + 1) [])
        pure (insertHeader hs n v))
      headers0

/-- Claim-side header installation (follows the words of claim C1): the
option list is read two values at a time and every parsed name/value pair
is installed; an unparseable name or value is a construction failure. -/
def headersSpec : List (List Char) → Except Unit (List (List Char × List Char))
  | [] => .ok []
  | [_] => .error ()
  | k :: v :: rest => do
    let n ← parseHeaderName k
    let w ← parseHeaderValue v
    let tail ← headersSpec rest
    pure ((n, w) :: tail)

/-- ASCII lowercasing of a token; Rust `str::to_lowercase` agrees on
ASCII input. -/
def toLowerL (s : List Char) : List Char := s.map Char.toLower

/-- Rust `s.split(c)`: the separated pieces (`n` separators yield `n + 1`
pieces, so the result is never empty). -/
def splitOnChar (c : Char) : List Char → List (List Char)
  | [] => [[]]
  | a :: rest =>
    match splitOnChar c rest with
    | [] => [[]]
    | h :: t => if a = c then [] :: h :: t else (a :: h) :: t

/-- The value of a run of decimal digit characters. -/
def digitsVal (l : List Char) : Nat := l.foldl (fun a c => a * 10 + (c.toNat - 48)) 0

/-- Model of Rust `str::parse::<u16>`: an optional leading `+`, then at
least one decimal digit, with the value below 2^16 (overflow fails). -/
def parseU16 (l : List Char) : Option Nat :=
  let ds := if l.head? = some '+' then l.drop 1 else l
  if ds ≠ [] ∧ ds.all Char.isDigit then
    if digitsVal ds < 65536 then some (digitsVal ds) else none
  else none

/-- The `Quality` enum of src/commands/save.rs. -/
inductive Quality
  | Lowest
  | Highest
  | Resolution (w h : Nat)
  | Youtube144p
  | Youtube240p
  | Youtube360p
  | Youtube480p
  | Youtube720p
  | Youtube1080p
  | Youtube2k
  | Youtube1440p
  | Youtube4k
  | Youtube8k
deriving DecidableEq

/-- Failures of the quality grammar; the catch-all failure carries the
list of valid literal tokens that the source's message enumerates. -/
inductive QualityErr
  | invalidWidth
  | invalidHeight
  | incorrectFormat
  | unrecognized (valid : List (List Char))
deriving DecidableEq

/-- The literal tokens enumerated by the catch-all error message of the
quality grammar in src/commands/save.rs. -/
def validTokens : List (List Char) :=
  ["lowest".toList, "144p".toList, "240p".toList, "360p".toList, "480p".toList,
   "720p".toList, "hd".toList, "1080p".toList, "fhd".toList, "2k".toList,
   "1440p".toList, "qhd".toList, "4k".toList, "8k".toList, "highest".toList, "max".toList]

namespace CommandsSave

/-- The match of the quality grammar of src/commands/save.rs (lines
125-176) on the already lowercased token: the literal presets are tried
in source order; a remaining token containing `x` has
`split('x').next()` and `split('x').nth(1)` parsed as 16-bit integers,
the width first; anything else fails listing the valid literal tokens. -/
def qualityOfLow (l : List Char) : Except QualityErr Quality :=
  if l = "lowest".toList ∨ l = "min".toList then .ok .Lowest
  else if l = "144p".toList then .ok .Youtube144p
  else if l = "240p".toList then .ok .Youtube240p
  else if l = "360p".toList then .ok .Youtube360p
  else if l = "480p".toList then .ok .Youtube480p
  else if l = "720p".toList ∨ l = "hd".toList then .ok .Youtube720p
  else if l = "1080p".toList ∨ l = "fhd".toList then .ok .Youtube1080p
  else if l = "2k".toList then .ok .Youtube2k
  else if l = "1440p".toList ∨ l = "qhd".toList then .ok .Youtube1440p
  else if l = "4k".toList then .ok .Youtube4k
  else if l = "8k".toList then .ok .Youtube8k
  else if l = "highest".toList ∨ l = "max".toList then .ok .Highest
  else if 'x' ∈ l then
    match (splitOnChar 'x' l).head?, (splitOnChar 'x' l).get? 1 with
    | some w, some h =>
      match parseU16 w with
      | none => .error .invalidWidth
      | some wv =>
        match parseU16 h with
        | none => .error .invalidHeight
        | some hv => .ok (.Resolution wv hv)
    | _, _ => .error .incorrectFormat
  else .error (.unrecognized validTokens)

/-- Model of the quality grammar of src/commands/save.rs: the token is
lowercased (`s.to_lowercase()`) and matched. -/
def quality (s : List Char) : Except QualityErr Quality := qualityOfLow (toLowerL s)

end CommandsSave

/-- Failures of the key grammar. -/
inductive KeyErr
  | base64Decode
deriving DecidableEq

/-- Value of a base64 alphabet character (the ranges are written on
`Char.toNat`: 65-90 is `A`-`Z`, 97-122 is `a`-`z`, 48-57 is `0`-`9`). -/
def b64Val (c : Char) : Option Nat :=
  if 65 ≤ c.toNat ∧ c.toNat ≤ 90 then some (c.toNat - 65)
  else if 97 ≤ c.toNat ∧ c.toNat ≤ 122 then some (c.toNat - 71)
  else if 48 ≤ c.toNat ∧ c.toNat ≤ 57 then some (c.toNat + 4)
  else if c = '+' then some 62
  else if c = '/' then some 63
  else none

/-- Value of a character inside a four-character block of
`EVP_DecodeBlock`: the decode table maps `=` to 0 (that is why the
padding contributes zero bits and the caller trims the output). -/
def b64BlockVal (c : Char) : Option Nat :=
  if c = '=' then some 0 else b64Val c

/-- The four-character groups of `EVP_DecodeBlock`: each group of four
table values becomes three bytes; a leftover of one to three characters
fails. -/
def b64Quads : List Char → Option (List Nat)
  | [] => some []
  | c1 :: c2 :: c3 :: c4 :: rest =>
    match b64BlockVal c1, b64BlockVal c2, b64BlockVal c3, b64BlockVal c4, b64Quads rest with
    | some v1, some v2, some v3, some v4, some tail =>
      some ((v1 * 4 + v2 / 16) :: ((v2 % 16) * 16 + v3 / 4) :: ((v3 % 4) * 64 + v4) :: tail)
    | _, _, _, _, _ => none
  | _ => none

/-- ASCII whitespace as stripped by Rust `str::trim` on the inputs in
scope here. -/
def isWsChar (c : Char) : Bool :=
  c = ' ' || c = '\t' || c = '\n' || c = '\r' || c = '\x0b' || c = '\x0c'

/-- The `src.trim()` call of `openssl::base64::decode_block`. -/
def rustTrim (s : List Char) : List Char :=
  ((s.dropWhile isWsChar).reverse.dropWhile isWsChar).reverse

/-- The number of trailing `=` characters, as counted by
`decode_block` when it trims the padding from the decoded output. -/
def b64PadLen (s : List Char) : Nat := (s.reverse.takeWhile (fun c => c = '=')).length

/-- Model of `openssl::base64::decode_block`: the input is trimmed of
surrounding whitespace, its length must then be a multiple of four, and
`EVP_DecodeBlock` decodes four characters at a time with `=` counting as
zero bits anywhere in a group; the caller finally drops as many bytes
from the end as there are trailing `=` characters (an over-padded input
such as `====` clamps at zero here, where the source's debug build would
panic on the subtraction).  An invalid character or length is a decode
failure. -/
def decodeBase64 (s : List Char) : Option (List Nat) :=
  if (rustTrim s).length % 4 ≠ 0 then none
  else
    match b64Quads (rustTrim s) with
    | some bytes => some (bytes.take (bytes.length - b64PadLen (rustTrim s)))
    | none => none

/-- Hex digit character, lowercase. -/
def hexDigit (d : Nat) : Char := if d < 10 then Char.ofNat (48 + d) else Char.ofNat (87 + d)

/-- The two hex digits of a byte. -/
def byteHex (b : Nat) : List Char := [hexDigit (b / 16), hexDigit (b % 16)]

/-- Per-byte hex rendering of a byte string. -/
def bytesHex (bytes : List Nat) : List Char := (bytes.map byteHex).flatten

/-- Model of `BigNum::from_slice` followed by
`to_hex_str()` and `to_ascii_lowercase()`: `from_slice` reads the bytes
as a big-endian value (so leading zero bytes are dropped), and
`BN_bn2hex` prints two lowercase digits for every remaining byte, with
the zero value printed as `0`. -/
def bnHex (bytes : List Nat) : List Char :=
  match bytes.dropWhile (fun b => b = 0) with
  | [] => ['0']
  | rest => bytesHex rest

namespace CommandsSave

/-- Stage one of the key grammar of src/commands/save.rs (lines 178-190),
the `let key = ...` binding: a token containing `:` and not starting with
the literal `base64` is split at the first `:`; the part before it, with
hyphens removed and lowercased, is the key id, and the material is the
token with first the id (`trim_start_matches(kid)`) and then all leading
`:` characters (`trim_start_matches(':')`) trimmed from its front. -/
def keyStage1 (s : List Char) : Option (List Char) × List Char :=
  if ':' ∈ s ∧ ¬("base64".toList.isPrefixOf s) then
    (some (toLowerL ((s.takeWhile (fun c => c ≠ ':')).filter (fun c => c ≠ '-'))),
     (trimStartMatches s (s.takeWhile (fun c => c ≠ ':'))).dropWhile (fun c => c = ':'))
  else (none, s)

/-- Model of the key grammar of src/commands/save.rs (lines 178-207):
stage one splits off the key id; a key material starting with `base64:`
then has that prefix trimmed (`trim_start_matches` removes repeats), the
rest base64-decoded, loaded into a `BigNum` and re-rendered as lowercase
hex (`bnHex`); a decode failure is reported, not dropped. -/
def key (s : List Char) : Except KeyErr (Option (List Char) × List Char) :=
  if "base64:".toList.isPrefixOf (keyStage1 s).2 then
    match decodeBase64 (trimStartMatches (keyStage1 s).2 ("base64:".toList)) with
    | some bytes => .ok ((keyStage1 s).1, bnHex bytes)
    | none => .error .base64Decode
  else .ok (keyStage1 s)

end CommandsSave

/-- Plain-language extension replacement as claim C2 words it: everything
after the last `.` (the extension) is replaced by `ext`, and a name
without any `.` gains the extension. -/
def replaceExtSpec (s ext : List Char) : List Char :=
  if '.' ∈ s then beforeLastDot s ++ '.' :: ext else s ++ '.' :: ext

/-- Removal of exactly one copy of a suffix. -/
def dropSuffixOnce (s pat : List Char) : List Char := s.take (s.length - pat.length)

/-- Claim-side `tempfile` naming (follows the words of claim C2). -/
def tempfileSpec (input : List Char) : List Char :=
  if ".ts.m3u8".toList <:+ lastSegment (stripQuery input) then
    dropSuffixOnce (lastSegment (stripQuery input)) (".m3u8".toList)
  else if ".m3u".toList <:+ lastSegment (stripQuery input) ∨
      ".m3u8".toList <:+ lastSegment (stripQuery input) then
    replaceExtSpec (lastSegment (stripQuery input)) ("ts".toList)
  else if ".mpd".toList <:+ lastSegment (stripQuery input) ∨
      ".xml".toList <:+ lastSegment (stripQuery input) then
    replaceExtSpec (lastSegment (stripQuery input)) ("m4s".toList)
  else replaceExtSpec (sanitize (lastSegment (stripQuery input))) ("mp4".toList)

/-- A normal file name: nonempty, not `.` or `..`, and not a leading-dot
name without any further dot (for which Rust path extensions are
`None`). -/
def goodName (s : List Char) : Prop :=
  ¬(s = [] ∨ s = ['.'] ∨ s = ['.', '.']) ∧ (s.head? = some '.' → '.' ∈ s.drop 1)

instance (s : List Char) : Decidable (goodName s) := by
  unfold goodName
  infer_instance

/-- Claim-side input classification (C3): on the query-stripped input,
playlist suffixes take precedence over manifest suffixes with anything
else the generic class, and the `http` prefix chooses the URL axis. -/
def inputTypeSpec (input : List Char) : InputType :=
  if ".m3u".toList <:+ stripQuery input ∨ ".m3u8".toList <:+ stripQuery input ∨
      ".ts.m3u8".toList <:+ stripQuery input then
    if "http".toList <+: stripQuery input then .HlsUrl else .HlsLocalFile
  else if ".mpd".toList <:+ stripQuery input ∨ ".xml".toList <:+ stripQuery input then
    if "http".toList <+: stripQuery input then .DashUrl else .DashLocalFile
  else
    if "http".toList <+: stripQuery input then .Website else .LocalFile

/-- First-match lookup in an association list of tokens. -/
def assocFind (l : List Char) : List (List Char × Quality) → Option Quality
  | [] => none
  | (k, v) :: rest => if l = k then some v else assocFind l rest

/-- The literal token table of the quality grammar (aliases map to the
same preset). -/
def litTable : List (List Char × Quality) :=
  [("lowest".toList, .Lowest), ("min".toList, .Lowest),
   ("144p".toList, .Youtube144p), ("240p".toList, .Youtube240p),
   ("360p".toList, .Youtube360p), ("480p".toList, .Youtube480p),
   ("720p".toList, .Youtube720p), ("hd".toList, .Youtube720p),
   ("1080p".toList, .Youtube1080p), ("fhd".toList, .Youtube1080p),
   ("2k".toList, .Youtube2k), ("1440p".toList, .Youtube1440p),
   ("qhd".toList, .Youtube1440p), ("4k".toList, .Youtube4k),
   ("8k".toList, .Youtube8k), ("highest".toList, .Highest),
   ("max".toList, .Highest)]

/-- Amended claim-side quality grammar (C4), on the lowered token:
literal table lookup; otherwise a token containing `x` has its first two
`x`-separated fields parsed as non-negative 16-bit integers (text after
a second `x` is ignored), a failure naming the failing half; otherwise
the failure lists the valid literal tokens. -/
def qualityAmendedLow (l : List Char) : Except QualityErr Quality :=
  match assocFind l litTable with
  | some q => .ok q
  | none =>
    if 'x' ∈ l then
      match parseU16 ((splitOnChar 'x' l).getD 0 []), parseU16 ((splitOnChar 'x' l).getD 1 []) with
      | some w, some h => .ok (.Resolution w h)
      | none, _ => .error .invalidWidth
      | some _, none => .error .invalidHeight
    else .error (.unrecognized validTokens)

/-- Amended claim-side quality grammar (C4): case-insensitive by
lowering the token first. -/
def qualityAmended (s : List Char) : Except QualityErr Quality :=
  qualityAmendedLow (toLowerL s)

/-- Quality grammar exactly as claim C4 words it: a non-literal token
containing `x` is split once on the FIRST `x` and both halves (the second
being the whole remainder) are parsed. -/
def qualityClaimed (s : List Char) : Except QualityErr Quality :=
  let l := toLowerL s
  match assocFind l litTable with
  | some q => .ok q
  | none =>
    if 'x' ∈ l then
      match parseU16 (l.takeWhile (fun c => c ≠ 'x')),
            parseU16 ((l.dropWhile (fun c => c ≠ 'x')).drop 1) with
      | some w, some h => .ok (.Resolution w h)
      | none, _ => .error .invalidWidth
      | some _, none => .error .invalidHeight
    else .error (.unrecognized validTokens)

/-- Amended claim-side key splitting (C5): the key id is the part before
the first `:` (hyphens removed, lowercased); the material is the
remainder after the first `:` with any additional leading `:` characters
also stripped. -/
def keySpecC5 (s : List Char) : Option (List Char) × List Char :=
  if ':' ∈ s ∧ ¬("base64".toList.isPrefixOf s) then
    (some (toLowerL ((s.takeWhile (fun c => c ≠ ':')).filter (fun c => c ≠ '-'))),
     (s.dropWhile (fun c => c ≠ ':')).dropWhile (fun c => c = ':'))
  else (none, s)

/-- Claim-side rendering for C6: the per-byte hex string with leading
`00` digit pairs removed, `"0"` for an all-zero or empty rendering. -/
def stripZeroPairsAux : List Char → List Char
  | c1 :: c2 :: rest => if c1 = '0' ∧ c2 = '0' then stripZeroPairsAux rest else c1 :: c2 :: rest
  | l => l

/-- The claim-side C6 rendering with the zero fallback. -/
def stripZeroPairs (l : List Char) : List Char :=
  match stripZeroPairsAux l with
  | [] => ['0']
  | r => r

/-! ### General lemmas about the string primitives -/

theorem trimEndAux_nil (fuel : Nat) (s : List Char) : trimEndAux [] fuel s = s := by
  cases fuel with
  | zero => rfl
  | succ f =>
    unfold trimEndAux
    rw [if_neg]
    intro h
    exact h.1 rfl

theorem trimStartAux_nil (fuel : Nat) (s : List Char) : trimStartAux [] fuel s = s := by
  cases fuel with
  | zero => rfl
  | succ f =>
    unfold trimStartAux
    rw [if_neg]
    intro h
    exact h.1 rfl

theorem suffix_getLast {p t : List Char} (h : p <:+ t) (hp : p ≠ []) :
    t.getLast? = p.getLast? := by
  obtain ⟨pre, rfl⟩ := h
  rw [List.getLast?_append]
  obtain ⟨x, hx⟩ := Option.isSome_iff_exists.mp (List.getLast?_isSome.mpr hp)
  rw [hx, Option.or_some]

theorem trimEndAux_single {pat s : List Char} {fuel : Nat} (hp : pat ≠ [])
    (h1 : pat.isSuffixOf s = true)
    (h2 : pat.isSuffixOf (s.take (s.length - pat.length)) = false) (hf : 1 ≤ fuel) :
    trimEndAux pat fuel s = s.take (s.length - pat.length) := by
  match fuel, hf with
  | f + 1, _ =>
    unfold trimEndAux
    rw [if_pos ⟨hp, h1⟩]
    match f with
    | 0 => rfl
    | g + 1 =>
      unfold trimEndAux
      rw [if_neg]
      intro hc
      rw [h2] at hc
      exact Bool.false_ne_true hc.2

theorem trimEnd_single {pat s : List Char} (hp : pat ≠ []) (h1 : pat <:+ s)
    (h2 : ¬pat <:+ s.take (s.length - pat.length)) :
    trimEndMatches s pat = s.take (s.length - pat.length) := by
  have hlen : 1 ≤ s.length := by
    obtain ⟨pre, rfl⟩ := h1
    cases pat with
    | nil => exact absurd rfl hp
    | cons a t =>
      simp only [List.length_append, List.length_cons]
      omega
  unfold trimEndMatches
  refine trimEndAux_single hp (List.isSuffixOf_iff_suffix.mpr h1) ?_ hlen
  rw [Bool.eq_false_iff]
  intro hc
  exact h2 (List.isSuffixOf_iff_suffix.mp hc)

theorem trimStartAux_single {pat s : List Char} {fuel : Nat} (hp : pat ≠ [])
    (h1 : pat.isPrefixOf s = true)
    (h2 : pat.isPrefixOf (s.drop pat.length) = false) (hf : 1 ≤ fuel) :
    trimStartAux pat fuel s = s.drop pat.length := by
  match fuel, hf with
  | f + 1, _ =>
    unfold trimStartAux
    rw [if_pos ⟨hp, h1⟩]
    match f with
    | 0 => rfl
    | g + 1 =>
      unfold trimStartAux
      rw [if_neg]
      intro hc
      rw [h2] at hc
      exact Bool.false_ne_true hc.2

theorem trimStart_single {pat s : List Char} (hp : pat ≠ []) (h1 : pat <+: s)
    (h2 : ¬pat <+: s.drop pat.length) :
    trimStartMatches s pat = s.drop pat.length := by
  have hlen : 1 ≤ s.length := by
    obtain ⟨post, rfl⟩ := h1
    cases pat with
    | nil => exact absurd rfl hp
    | cons a t =>
      simp only [List.length_append, List.length_cons]
      omega
  unfold trimStartMatches
  refine trimStartAux_single hp (List.isPrefixOf_iff_prefix.mpr h1) ?_ hlen
  rw [Bool.eq_false_iff]
  intro hc
  exact h2 (List.isPrefixOf_iff_prefix.mp hc)

theorem suffix_m3u8_of_dotted {u : List Char} (h : ".ts.m3u8".toList <:+ u) :
    ".m3u8".toList <:+ u :=
  List.IsSuffix.trans (by decide) h

theorem suffix_m3u8_of_undotted {u : List Char} (h : "ts.m3u8".toList <:+ u) :
    ".m3u8".toList <:+ u :=
  List.IsSuffix.trans (by decide) h

theorem playlistCond_iff (u : List Char) :
    (".m3u".toList <:+ u ∨ ".m3u8".toList <:+ u ∨ "ts.m3u8".toList <:+ u) ↔
    (".m3u".toList <:+ u ∨ ".m3u8".toList <:+ u ∨ ".ts.m3u8".toList <:+ u) := by
  constructor
  · rintro (h | h | h)
    · exact Or.inl h
    · exact Or.inr (Or.inl h)
    · exact Or.inr (Or.inl (suffix_m3u8_of_undotted h))
  · rintro (h | h | h)
    · exact Or.inl h
    · exact Or.inr (Or.inl h)
    · exact Or.inr (Or.inl (suffix_m3u8_of_dotted h))

theorem sanitizeChar_dot (c : Char) : sanitizeChar c = '.' ↔ c = '.' := by
  unfold sanitizeChar
  split_ifs with h
  · constructor
    · intro hc
      exact absurd hc (by decide)
    · intro hc
      subst hc
      rcases h with h | h | h | h | h | h | h | h <;> exact absurd h (by decide)
  · exact Iff.rfl

theorem dot_mem_sanitize (s : List Char) : '.' ∈ sanitize s ↔ '.' ∈ s := by
  unfold sanitize
  simp only [List.mem_map]
  constructor
  · rintro ⟨a, ha, hfa⟩
    rw [(sanitizeChar_dot a).mp hfa] at ha
    exact ha
  · intro h
    exact ⟨'.', h, by decide⟩

theorem goodName_sanitize {s : List Char} (h : goodName s) : goodName (sanitize s) := by
  obtain ⟨h1, h2⟩ := h
  constructor
  · intro habs
    apply h1
    rcases habs with h | h | h
    · exact Or.inl (List.map_eq_nil_iff.mp h)
    · refine Or.inr (Or.inl ?_)
      cases s with
      | nil => simp [sanitize] at h
      | cons a t =>
        cases t with
        | nil =>
          simp only [sanitize, List.map_cons, List.map_nil, List.cons.injEq, and_true] at h
          rw [(sanitizeChar_dot a).mp h]
        | cons b u => simp [sanitize] at h
    · refine Or.inr (Or.inr ?_)
      cases s with
      | nil => simp [sanitize] at h
      | cons a t =>
        cases t with
        | nil => simp [sanitize] at h
        | cons b u =>
          cases u with
          | nil =>
            simp only [sanitize, List.map_cons, List.map_nil, List.cons.injEq, and_true] at h
            rw [(sanitizeChar_dot a).mp h.1, (sanitizeChar_dot b).mp h.2]
          | cons d v => simp [sanitize] at h
  · intro hh
    rw [sanitize, List.head?_map, Option.map_eq_some'] at hh
    obtain ⟨a, ha, hfa⟩ := hh
    have ha' : s.head? = some '.' := by
      rw [ha, (sanitizeChar_dot a).mp hfa]
    have hm := h2 ha'
    rw [sanitize, ← List.map_drop]
    exact (dot_mem_sanitize (s.drop 1)).mpr hm

theorem rustSet_eq_spec {s : List Char} (e : List Char) (h : goodName s) :
    rustSetExtension s e = replaceExtSpec s e := by
  obtain ⟨hne, hdot⟩ := h
  unfold rustSetExtension replaceExtSpec
  rw [if_neg hne]
  by_cases h2 : '.' ∈ s.drop 1
  · rw [if_pos h2, if_pos (List.mem_of_mem_drop h2)]
  · rw [if_neg h2, if_neg]
    intro hmem
    cases s with
    | nil => cases hmem
    | cons c rest =>
      rcases List.mem_cons.mp hmem with hc | hr
      · exact h2 (hdot (by rw [hc]; rfl))
      · exact h2 hr

theorem trimEnd_m3u8 {s : List Char} (h : ".ts.m3u8".toList <:+ s) :
    trimEndMatches s (".m3u8".toList) = dropSuffixOnce s (".m3u8".toList) := by
  unfold dropSuffixOnce
  refine trimEnd_single (by decide) (suffix_m3u8_of_dotted h) ?_
  obtain ⟨pre, rfl⟩ := h
  have hlen : (pre ++ ".ts.m3u8".toList).length - (".m3u8".toList).length = pre.length + 3 := by
    simp only [List.length_append]
    show pre.length + 8 - 5 = pre.length + 3
    omega
  rw [hlen]
  have htake : (pre ++ ".ts.m3u8".toList).take (pre.length + 3) = pre ++ ".ts".toList := by
    rw [List.take_append]
    rfl
  rw [htake]
  intro hc
  have h8 := suffix_getLast hc (by decide)
  rw [List.getLast?_append] at h8
  rw [show (".ts".toList.getLast?) = some 's' from rfl, Option.or_some] at h8
  exact absurd h8 (by decide)

/-! ### Claim theorems: input classification, headers, panics, refinement -/

/-- Claim C3 (confirmed): `input_type` strips any query string, matches
playlist suffixes before manifest suffixes with anything else the generic
fallback, and a leading `http` prefix selects the URL variant; the
function is a total pure function equal to the claim-side classifier. -/
theorem input_type_matches_spec (s : List Char) :
    CommandsSave.input_type s = inputTypeSpec s := by
  unfold CommandsSave.input_type inputTypeSpec
  by_cases hpl : ".m3u".toList <:+ stripQuery s ∨ ".m3u8".toList <:+ stripQuery s ∨
      "ts.m3u8".toList <:+ stripQuery s
  · have hd := (playlistCond_iff _).mp hpl
    rw [if_pos hd]
    by_cases hweb : "http".toList <+: stripQuery s
    · rw [if_pos hweb, if_pos hpl, if_pos hweb]
    · rw [if_neg hweb, if_pos hpl, if_neg hweb]
  · have hd : ¬(".m3u".toList <:+ stripQuery s ∨ ".m3u8".toList <:+ stripQuery s ∨
        ".ts.m3u8".toList <:+ stripQuery s) := fun hc => hpl ((playlistCond_iff _).mpr hc)
    rw [if_neg hd]
    by_cases hmf : ".mpd".toList <:+ stripQuery s ∨ ".xml".toList <:+ stripQuery s
    · rw [if_pos hmf]
      by_cases hweb : "http".toList <+: stripQuery s
      · rw [if_pos hweb, if_neg hpl, if_pos hmf, if_pos hweb]
      · rw [if_neg hweb, if_neg hpl, if_pos hmf, if_neg hweb, if_neg hweb, if_pos hmf]
    · rw [if_neg hmf]
      by_cases hweb : "http".toList <+: stripQuery s
      · rw [if_pos hweb, if_neg hpl, if_neg hmf, if_pos hweb]
      · rw [if_neg hweb, if_neg hpl, if_neg hmf, if_neg hweb, if_neg hmf, if_neg hweb]

/-- Claim C1 (code_bug): the header-installation loop of `Save::client`
iterates over the length of the freshly created empty `HeaderMap`, so a
supplied header pair is never installed and an unparseable name (here one
with a space) never fails construction, while the claim-side reading
installs the parsed pair and rejects the bad name. -/
theorem headers_loop_installs_nothing :
    clientDefaultHeaders ["Referer".toList, "https://example.com".toList] = .ok [] ∧
    clientDefaultHeaders ["bad name".toList, "v".toList] = .ok [] ∧
    headersSpec ["Referer".toList, "https://example.com".toList] =
      .ok [("referer".toList, "https://example.com".toList)] ∧
    headersSpec ["bad name".toList, "v".toList] = .error () := by
  decide

/-- Claim C9 (code_bug): with the input `.` (whose computed name `.`
always exists on a real filesystem) and no resume, the args `tempfile`
unwraps `file_stem`/`extension` of a path that has neither and panics
instead of returning a name. -/
theorem tempfile_dot_panics :
    ArgsSave.tempfile (fun l => l == ".".toList) false 10 (".".toList) = .panicked := by
  decide

/-- Claim C10 (confirmed): whenever no file exists at the computed path or
a prior session is being resumed, the args `tempfile` returns exactly the
name computed by the commands `tempfile`; the two differ only in the
collision-probing branch. -/
theorem tempfile_impls_agree (fs : List Char → Bool) (resume : Bool) (fuel : Nat)
    (input : List Char)
    (h : fs (CommandsSave.tempfile input) = false ∨ resume = true) :
    ArgsSave.tempfile fs resume fuel input = .ok (CommandsSave.tempfile input) := by
  have hout : ArgsSave.tempfileOutput input = CommandsSave.tempfile input := rfl
  unfold ArgsSave.tempfile
  rw [hout]
  have hcond : (fs (CommandsSave.tempfile input) && !resume) = false := by
    rcases h with h | h <;> simp [h]
  simp [hcond]

/-- Witness for C10 at a concrete input: with an empty filesystem the two
implementations agree on `a.m3u8`. -/
theorem tempfile_impls_agree_witness :
    ArgsSave.tempfile (fun _ => false) false 0 ("a.m3u8".toList) =
      .ok (CommandsSave.tempfile ("a.m3u8".toList)) :=
  tempfile_impls_agree (fun _ => false) false 0 ("a.m3u8".toList) (Or.inl rfl)

/-- Claim C2 counterexample: for the input `.m3u8` the claim's reading
(replace the extension of the final segment with `.ts`) yields `.ts`,
while the code's `set_extension` treats the lone leading dot as part of
the stem and appends, yielding `.m3u8.ts`. -/
theorem tempfile_hidden_dot_counterexample :
    CommandsSave.tempfile (".m3u8".toList) = ".m3u8.ts".toList ∧
    tempfileSpec (".m3u8".toList) = ".ts".toList := by
  decide

/-- Claim C2 (corrected): for every input whose final query-stripped path
segment is a normal file name (nonempty, not `.` or `..`, and not a
leading-dot name without a further dot), `tempfile` behaves exactly as
the claim describes: `.ts.m3u8` drops only the `.m3u8` tail, other
`.m3u`/`.m3u8` segments get extension `.ts`, `.mpd`/`.xml` get `.m4s`,
and anything else is sanitized and gets `.mp4`. -/
theorem tempfile_normal_name_spec (s : List Char)
    (h : goodName (lastSegment (stripQuery s))) :
    CommandsSave.tempfile s = tempfileSpec s := by
  unfold CommandsSave.tempfile tempfileSpec
  by_cases hts : ".ts.m3u8".toList <:+ lastSegment (stripQuery s)
  · rw [if_pos (Or.inr (suffix_m3u8_of_dotted hts)), if_pos hts, if_pos hts]
    exact trimEnd_m3u8 hts
  · by_cases hpl : ".m3u".toList <:+ lastSegment (stripQuery s) ∨
        ".m3u8".toList <:+ lastSegment (stripQuery s)
    · rw [if_pos hpl, if_neg hts, if_neg hts, if_pos hpl]
      exact rustSet_eq_spec _ h
    · rw [if_neg hpl, if_neg hts, if_neg hpl]
      by_cases hmf : ".mpd".toList <:+ lastSegment (stripQuery s) ∨
          ".xml".toList <:+ lastSegment (stripQuery s)
      · rw [if_pos hmf, if_pos hmf]
        exact rustSet_eq_spec _ h
      · rw [if_neg hmf, if_neg hmf]
        exact rustSet_eq_spec _ (goodName_sanitize h)

/-- Witness for C2 at a concrete input with a normal segment name. -/
theorem tempfile_normal_name_spec_witness :
    goodName (lastSegment (stripQuery ("https://e.com/video/index.m3u8?t=1".toList))) ∧
    CommandsSave.tempfile ("https://e.com/video/index.m3u8?t=1".toList) =
      tempfileSpec ("https://e.com/video/index.m3u8?t=1".toList) :=
  ⟨by decide, tempfile_normal_name_spec _ (by decide)⟩

theorem dropWhile_head_false {p : Char → Bool} :
    ∀ {l : List Char} {c : Char} {rest : List Char}, l.dropWhile p = c :: rest → p c = false := by
  intro l
  induction l with
  | nil =>
    intro c rest h
    simp [List.dropWhile] at h
  | cons a t ih =>
    intro c rest h
    rw [List.dropWhile_cons] at h
    by_cases hp : p a = true
    · rw [if_pos hp] at h
      exact ih h
    · rw [if_neg hp] at h
      injection h with h1 h2
      rw [← h1]
      exact Bool.eq_false_iff.mpr hp

theorem trimStart_takeWhile_colon (s : List Char) :
    trimStartMatches s (s.takeWhile (fun c => c ≠ ':')) = s.dropWhile (fun c => c ≠ ':') := by
  by_cases hk : s.takeWhile (fun c => c ≠ ':') = []
  · have hsplit := List.takeWhile_append_dropWhile (fun c => decide (c ≠ ':')) s
    rw [hk] at hsplit
    rw [List.nil_append] at hsplit
    rw [hk]
    unfold trimStartMatches
    rw [trimStartAux_nil]
    exact hsplit.symm
  · have hsplit := List.takeWhile_append_dropWhile (fun c => decide (c ≠ ':')) s
    have h1 : s.takeWhile (fun c => c ≠ ':') <+: s := List.takeWhile_prefix _
    have hdrop : s.drop (s.takeWhile (fun c => c ≠ ':')).length =
        s.dropWhile (fun c => c ≠ ':') := by
      have hd := List.drop_left (s.takeWhile (fun c => decide (c ≠ ':')))
        (s.dropWhile (fun c => decide (c ≠ ':')))
      rw [hsplit] at hd
      exact hd
    rw [trimStart_single hk h1 ?hnp, hdrop]
    case hnp =>
      rw [hdrop]
      intro hc
      cases hrest : s.dropWhile (fun c => c ≠ ':') with
      | nil =>
        rw [hrest] at hc
        exact hk (List.prefix_nil.mp hc)
      | cons r0 rr =>
        rw [hrest] at hc
        cases hkid : s.takeWhile (fun c => c ≠ ':') with
        | nil => exact hk hkid
        | cons k0 kk =>
          rw [hkid] at hc
          obtain ⟨t, ht⟩ := hc
          injection ht with hh1 hh2
          have hmem : k0 ∈ s.takeWhile (fun c => decide (c ≠ ':')) := by
            rw [hkid]
            exact List.mem_cons_self k0 kk
          have hk0 := List.mem_takeWhile_imp hmem
          have hr0 := dropWhile_head_false hrest
          rw [hh1] at hk0
          exact absurd (hk0.symm.trans hr0) (by decide)

theorem keyStage1_eq_spec (s : List Char) : CommandsSave.keyStage1 s = keySpecC5 s := by
  unfold CommandsSave.keyStage1 keySpecC5
  by_cases h : ':' ∈ s ∧ ¬("base64".toList.isPrefixOf s = true)
  · rw [if_pos h, if_pos h, trimStart_takeWhile_colon s]
  · rw [if_neg h, if_neg h]

/-- Claim C5 counterexample: for `ab-cd::deadbeef` the claim's key
material is the remainder after the first `:`, namely `:deadbeef`, but
the source's `trim_start_matches(':')` strips all leading colons, so the
code returns `deadbeef`. -/
theorem key_double_colon_counterexample :
    CommandsSave.key ("ab-cd::deadbeef".toList) ≠
      .ok (some ("abcd".toList), ":deadbeef".toList) := by
  decide

/-- Claim C5 (corrected): for every key token whose resulting material is
not base64-marked, the key grammar returns exactly the claim-side pair:
the key id is the part before the first `:` (hyphens removed, lowercased)
when the token contains `:` and does not start with `base64`, and the
material is the remainder after the first `:` with any further leading
colons also stripped; otherwise the whole token is the material with no
key id. -/
theorem key_plain_material_spec (s : List Char)
    (h : ¬("base64:".toList <+: (keySpecC5 s).2)) :
    CommandsSave.key s = .ok (keySpecC5 s) := by
  have hb : ("base64:".toList.isPrefixOf (keySpecC5 s).2) = false := by
    rw [Bool.eq_false_iff]
    intro hc
    exact h (List.isPrefixOf_iff_prefix.mp hc)
  unfold CommandsSave.key
  rw [keyStage1_eq_spec, hb]
  simp

/-- Witness for C5 at the claim's own example token. -/
theorem key_plain_material_spec_witness :
    CommandsSave.key ("ab-cd:deadbeef".toList) = .ok (keySpecC5 ("ab-cd:deadbeef".toList)) :=
  key_plain_material_spec _ (by decide)

theorem bytesHex_cons (b : Nat) (tl : List Nat) :
    bytesHex (b :: tl) = byteHex b ++ bytesHex tl := by
  simp [bytesHex]

theorem hexDigit_zero : hexDigit 0 = '0' := by decide

theorem hexDigit_ne_zero {d : Nat} (h1 : d < 16) (h2 : d ≠ 0) : hexDigit d ≠ '0' := by
  interval_cases d
  · exact absurd rfl h2
  all_goals decide

theorem b64Val_lt {c : Char} {v : Nat} (h : b64Val c = some v) : v < 64 := by
  unfold b64Val at h
  split_ifs at h with h1 h2 h3 h4 h5 <;> injection h with h <;> omega

theorem b64BlockVal_lt {c : Char} {v : Nat} (h : b64BlockVal c = some v) : v < 64 := by
  unfold b64BlockVal at h
  split_ifs at h with h1
  · injection h with h
    omega
  · exact b64Val_lt h

theorem b64Quads_lt : ∀ (l : List Char) (bytes : List Nat), b64Quads l = some bytes →
    ∀ x ∈ bytes, x < 256
  | [], bytes, h => by
    unfold b64Quads at h
    injection h with h
    subst h
    intro x hx
    cases hx
  | c1 :: c2 :: c3 :: c4 :: rest, bytes, h => by
    unfold b64Quads at h
    cases hv1 : b64BlockVal c1 with
    | none => rw [hv1] at h; cases h
    | some v1 =>
      cases hv2 : b64BlockVal c2 with
      | none => rw [hv1, hv2] at h; cases h
      | some v2 =>
        cases hv3 : b64BlockVal c3 with
        | none => rw [hv1, hv2, hv3] at h; cases h
        | some v3 =>
          cases hv4 : b64BlockVal c4 with
          | none => rw [hv1, hv2, hv3, hv4] at h; cases h
          | some v4 =>
            cases hq : b64Quads rest with
            | none => rw [hv1, hv2, hv3, hv4, hq] at h; cases h
            | some tail =>
              rw [hv1, hv2, hv3, hv4, hq] at h
              injection h with h
              subst h
              have b1 := b64BlockVal_lt hv1
              have b2 := b64BlockVal_lt hv2
              have b3 := b64BlockVal_lt hv3
              have b4 := b64BlockVal_lt hv4
              intro x hx
              rcases List.mem_cons.mp hx with hx | hx
              · have : v2 / 16 < 4 := (Nat.div_lt_iff_lt_mul (by norm_num)).mpr (by omega)
                omega
              · rcases List.mem_cons.mp hx with hx | hx
                · have m2 : v2 % 16 < 16 := Nat.mod_lt _ (by norm_num)
                  have : v3 / 4 < 16 := (Nat.div_lt_iff_lt_mul (by norm_num)).mpr (by omega)
                  omega
                · rcases List.mem_cons.mp hx with hx | hx
                  · have m3 : v3 % 4 < 4 := Nat.mod_lt _ (by norm_num)
                    omega
                  · exact b64Quads_lt rest tail hq x hx
  | [c1], bytes, h => by unfold b64Quads at h; cases h
  | [c1, c2], bytes, h => by unfold b64Quads at h; cases h
  | [c1, c2, c3], bytes, h => by unfold b64Quads at h; cases h

theorem decodeBase64_lt {s : List Char} {bytes : List Nat}
    (h : decodeBase64 s = some bytes) : ∀ x ∈ bytes, x < 256 := by
  unfold decodeBase64 at h
  split_ifs at h with hlen
  cases hq : b64Quads (rustTrim s) with
  | none => rw [hq] at h; cases h
  | some bs =>
    rw [hq] at h
    injection h with h
    subst h
    intro x hx
    exact b64Quads_lt _ _ hq x (List.mem_of_mem_take hx)

theorem stripZeroPairsAux_zeros (X : List Char) :
    stripZeroPairsAux ('0' :: '0' :: X) = stripZeroPairsAux X := by
  conv_lhs => unfold stripZeroPairsAux
  rw [if_pos ⟨rfl, rfl⟩]

theorem stripZeroPairsAux_ne (c1 c2 : Char) (X : List Char) (hc : ¬(c1 = '0' ∧ c2 = '0')) :
    stripZeroPairsAux (c1 :: c2 :: X) = c1 :: c2 :: X := by
  conv_lhs => unfold stripZeroPairsAux
  rw [if_neg hc]

/-- The `BigNum` hex rendering of a byte string is exactly the per-byte
hex rendering with leading `00` digit pairs stripped (`"0"` when all
bytes are zero). -/
theorem bnHex_eq_stripZeroPairs : ∀ (bytes : List Nat), (∀ x ∈ bytes, x < 256) →
    bnHex bytes = stripZeroPairs (bytesHex bytes) := by
  intro bytes
  induction bytes with
  | nil =>
    intro h
    rfl
  | cons b tl ih =>
    intro h
    by_cases hb : b = 0
    · subst hb
      have e1 : bnHex (0 :: tl) = bnHex tl := by
        unfold bnHex
        rw [List.dropWhile_cons, if_pos (by decide)]
      rw [e1, ih (fun x hx => h x (List.mem_cons_of_mem _ hx)), bytesHex_cons]
      have e2 : byteHex 0 = ['0', '0'] := by decide
      rw [e2]
      rw [show (('0' :: '0' :: [] : List Char) ++ bytesHex tl) = '0' :: '0' :: bytesHex tl
        from rfl]
      unfold stripZeroPairs
      rw [stripZeroPairsAux_zeros]
    · have hb256 := h b (List.mem_cons_self _ _)
      have e1 : bnHex (b :: tl) = bytesHex (b :: tl) := by
        unfold bnHex
        rw [List.dropWhile_cons, if_neg (by simp [hb])]
      rw [e1, bytesHex_cons]
      have hne : ¬(hexDigit (b / 16) = '0' ∧ hexDigit (b % 16) = '0') := by
        rintro ⟨hd1, hd2⟩
        have l1 : b / 16 < 16 := (Nat.div_lt_iff_lt_mul (by norm_num)).mpr (by omega)
        have l2 : b % 16 < 16 := Nat.mod_lt _ (by norm_num)
        have z1 : b / 16 = 0 := by
          by_contra hz
          exact hexDigit_ne_zero l1 hz hd1
        have z2 : b % 16 = 0 := by
          by_contra hz
          exact hexDigit_ne_zero l2 hz hd2
        omega
      rw [show ((byteHex b : List Char) ++ bytesHex tl) =
        hexDigit (b / 16) :: hexDigit (b % 16) :: bytesHex tl from rfl]
      unfold stripZeroPairs
      rw [stripZeroPairsAux_ne _ _ _ hne]

/-- Claim C6 counterexample: `base64:AAAA` decodes to three zero bytes,
whose per-byte lowercase hex rendering is `000000`; the code's `BigNum`
round-trip stores `0` instead. -/
theorem key_base64_zero_counterexample :
    bytesHex [0, 0, 0] = "000000".toList ∧
    CommandsSave.key ("base64:AAAA".toList) ≠ .ok (none, "000000".toList) ∧
    CommandsSave.key ("base64:AAAA".toList) = .ok (none, "0".toList) := by
  decide

/-- Claim C6 (corrected): for every key token whose material is
base64-marked, the key grammar strips the (repeated) `base64:` prefix,
decodes the rest as base64 (whitespace-trimmed, four characters at a
time with `=` counting as zero bits, the trailing `=` count trimmed from
the output) and stores the decoded bytes' lowercase per-byte hex
rendering with the leading zero bytes (leading `00` digit pairs)
removed (`"0"` for an all-zero value); an invalid character or length is
a reported decode failure, never a silently dropped key. -/
theorem key_base64_hex_spec (s : List Char)
    (h : "base64:".toList <+: (keySpecC5 s).2) :
    CommandsSave.key s =
      match decodeBase64 (trimStartMatches (keySpecC5 s).2 ("base64:".toList)) with
      | some bytes => .ok ((keySpecC5 s).1, stripZeroPairs (bytesHex bytes))
      | none => .error .base64Decode := by
  unfold CommandsSave.key
  rw [keyStage1_eq_spec]
  rw [if_pos (List.isPrefixOf_iff_prefix.mpr h)]
  cases hd : decodeBase64 (trimStartMatches (keySpecC5 s).2 ("base64:".toList)) with
  | none => rfl
  | some bytes =>
    dsimp only
    rw [bnHex_eq_stripZeroPairs bytes (decodeBase64_lt hd)]

/-- Witness for C6: the token `base64:Cg==` decodes to the byte `0x0a`
and is stored as `0a`, the leading zero digit of the top byte kept. -/
theorem key_base64_hex_spec_witness :
    CommandsSave.key ("base64:Cg==".toList) = .ok (none, "0a".toList) :=
  (key_base64_hex_spec ("base64:Cg==".toList) (by decide)).trans (by decide)

theorem splitOnChar_ne_nil (c : Char) : ∀ l : List Char, splitOnChar c l ≠ [] := by
  intro l
  cases l with
  | nil => simp [splitOnChar]
  | cons a rest =>
    unfold splitOnChar
    cases h : splitOnChar c rest with
    | nil => simp
    | cons hh tt => split_ifs <;> simp

theorem splitOnChar_two {c : Char} : ∀ {l : List Char}, c ∈ l →
    ∃ p0 p1 t, splitOnChar c l = p0 :: p1 :: t := by
  intro l
  induction l with
  | nil => intro h; cases h
  | cons a rest ih =>
    intro h
    by_cases hac : a = c
    · cases hs : splitOnChar c rest with
      | nil => exact absurd hs (splitOnChar_ne_nil c rest)
      | cons h0 t0 =>
        refine ⟨[], h0, t0, ?_⟩
        unfold splitOnChar
        rw [hs]
        dsimp only
        rw [if_pos hac]
    · have hcr : c ∈ rest := by
        rcases List.mem_cons.mp h with h1 | h1
        · exact absurd h1.symm hac
        · exact h1
      obtain ⟨p0, p1, t, hs⟩ := ih hcr
      refine ⟨a :: p0, p1, t, ?_⟩
      unfold splitOnChar
      rw [hs]
      dsimp only
      rw [if_neg hac]

theorem quality_low_eq (l : List Char) :
    CommandsSave.qualityOfLow l = qualityAmendedLow l := by
  by_cases h1 : l = "lowest".toList ∨ l = "min".toList
  · rcases h1 with h | h <;> rw [h] <;> decide
  by_cases h2 : l = "144p".toList
  · rw [h2]; decide
  by_cases h3 : l = "240p".toList
  · rw [h3]; decide
  by_cases h4 : l = "360p".toList
  · rw [h4]; decide
  by_cases h5 : l = "480p".toList
  · rw [h5]; decide
  by_cases h6 : l = "720p".toList ∨ l = "hd".toList
  · rcases h6 with h | h <;> rw [h] <;> decide
  by_cases h7 : l = "1080p".toList ∨ l = "fhd".toList
  · rcases h7 with h | h <;> rw [h] <;> decide
  by_cases h8 : l = "2k".toList
  · rw [h8]; decide
  by_cases h9 : l = "1440p".toList ∨ l = "qhd".toList
  · rcases h9 with h | h <;> rw [h] <;> decide
  by_cases h10 : l = "4k".toList
  · rw [h10]; decide
  by_cases h11 : l = "8k".toList
  · rw [h11]; decide
  by_cases h12 : l = "highest".toList ∨ l = "max".toList
  · rcases h12 with h | h <;> rw [h] <;> decide
  have hnone : assocFind l litTable = none := by
    have n1 : ¬(l = "lowest".toList) := fun hc => h1 (Or.inl hc)
    have n2 : ¬(l = "min".toList) := fun hc => h1 (Or.inr hc)
    have n3 : ¬(l = "720p".toList) := fun hc => h6 (Or.inl hc)
    have n4 : ¬(l = "hd".toList) := fun hc => h6 (Or.inr hc)
    have n5 : ¬(l = "1080p".toList) := fun hc => h7 (Or.inl hc)
    have n6 : ¬(l = "fhd".toList) := fun hc => h7 (Or.inr hc)
    have n7 : ¬(l = "1440p".toList) := fun hc => h9 (Or.inl hc)
    have n8 : ¬(l = "qhd".toList) := fun hc => h9 (Or.inr hc)
    have n9 : ¬(l = "highest".toList) := fun hc => h12 (Or.inl hc)
    have n10 : ¬(l = "max".toList) := fun hc => h12 (Or.inr hc)
    simp only [litTable, assocFind]
    rw [if_neg n1, if_neg n2, if_neg h2, if_neg h3, if_neg h4, if_neg h5, if_neg n3,
      if_neg n4, if_neg n5, if_neg n6, if_neg h8, if_neg n7, if_neg n8, if_neg h10,
      if_neg h11, if_neg n9, if_neg n10]
  unfold CommandsSave.qualityOfLow qualityAmendedLow
  rw [if_neg h1, if_neg h2, if_neg h3, if_neg h4, if_neg h5, if_neg h6, if_neg h7,
    if_neg h8, if_neg h9, if_neg h10, if_neg h11, if_neg h12, hnone]
  by_cases hx : 'x' ∈ l
  · rw [if_pos hx, if_pos hx]
    obtain ⟨p0, p1, t, hs⟩ := splitOnChar_two hx
    rw [hs]
    simp only [List.head?_cons, List.get?_cons_succ, List.get?_cons_zero,
      List.getD_cons_zero, List.getD_cons_succ]
    cases hw : parseU16 p0 with
    | none => rfl
    | some wv =>
      cases hh : parseU16 p1 with
      | none => rfl
      | some hv => rfl
  · rw [if_neg hx, if_neg hx]

/-- Claim C4 counterexample: the claim says a non-literal token with `x`
is split once on the FIRST `x` with the whole remainder as the height;
for `1x2x3` that reading fails with an invalid height, while the code's
`split('x').nth(1)` takes only the field between the first two `x`s and
accepts the token as Resolution(1, 2). -/
theorem quality_first_x_counterexample :
    CommandsSave.quality ("1x2x3".toList) = .ok (.Resolution 1 2) ∧
    qualityClaimed ("1x2x3".toList) = .error .invalidHeight := by
  decide

/-- Claim C4 (corrected): the quality grammar lowercases its token and is
exactly the amended claim-side grammar: literal table lookup (with `hd`
and `720p` mapping to the same preset), then a token containing `x` has
its first two `x`-separated fields parsed as non-negative 16-bit
integers with a failure naming the failing half (text after a second `x`
is ignored), and any other token fails listing the valid literal
tokens. -/
theorem quality_characterization (s : List Char) :
    CommandsSave.quality s = qualityAmended s :=
  quality_low_eq (toLowerL s)

theorem urlParse_ne_missing (s : List Char) : urlParse s ≠ .error .missingBaseurl := by
  unfold urlParse
  dsimp only
  split_ifs <;> intro hc <;> first
    | exact Except.noConfusion hc
    | (injection hc with hc; cases hc)

theorem parseAndJoin_ne_missing (b uri : List Char) :
    parseAndJoin b uri ≠ .error .missingBaseurl := by
  unfold parseAndJoin
  cases hp : urlParse b with
  | ok m => exact fun hc => Except.noConfusion hc
  | error e =>
    intro hc
    injection hc with hc
    subst hc
    exact urlParse_ne_missing b hp

/-- Claim C8 counterexample: with a malformed baseurl supplied and a
relative segment uri, `get_url` fails with a URL parse error even though
a baseurl option is present, so the claimed "fails exactly when no
baseurl was supplied and the input is not absolute" does not hold. -/
theorem get_url_bad_baseurl_counterexample :
    get_url (some ("xyz".toList)) ("page".toList) ("seg.ts".toList) = .error .badUrl := by
  decide

/-- Claim C8 (corrected): `get_url` fails with the message naming the
missing baseurl option exactly when the uri is relative, no baseurl was
supplied and the input is not absolute; an absolute uri is returned
unchanged; otherwise the uri is joined against the baseurl when present,
or else against the input, either of which can also fail when URL
parsing fails. -/
theorem get_url_characterization (b : Option (List Char)) (input uri : List Char) :
    (get_url b input uri = .error .missingBaseurl ↔
      ¬("http".toList <+: uri) ∧ b = none ∧ ¬("http".toList <+: input)) ∧
    (("http".toList <+: uri) → get_url b input uri = .ok uri) ∧
    (∀ u, b = some u → ¬("http".toList <+: uri) →
      get_url b input uri = parseAndJoin u uri) ∧
    (b = none → ¬("http".toList <+: uri) → ("http".toList <+: input) →
      get_url b input uri = parseAndJoin input uri) := by
  unfold get_url
  by_cases hu : "http".toList <+: uri
  · rw [if_pos hu]
    refine ⟨?_, fun _ => rfl, ?_, ?_⟩
    · constructor
      · intro hc
        exact Except.noConfusion hc
      · rintro ⟨hc, _, _⟩
        exact absurd hu hc
    · intro u hb hnu
      exact absurd hu hnu
    · intro hb hnu
      exact absurd hu hnu
  · rw [if_neg hu]
    cases b with
    | some u =>
      refine ⟨?_, fun hc => absurd hc hu, ?_, ?_⟩
      · constructor
        · intro hc
          exact absurd hc (parseAndJoin_ne_missing u uri)
        · rintro ⟨_, hb, _⟩
          exact Option.noConfusion hb
      · intro v hv hnu
        injection hv with hv
        rw [hv]
      · intro hb
        exact Option.noConfusion hb
    | none =>
      by_cases hi : "http".toList <+: input
      · rw [if_neg (fun hc => hc hi)]
        refine ⟨?_, fun hc => absurd hc hu, ?_, fun _ _ _ => rfl⟩
        · constructor
          · intro hc
            exact absurd hc (parseAndJoin_ne_missing input uri)
          · rintro ⟨_, _, hni⟩
            exact absurd hi hni
        · intro v hv
          exact Option.noConfusion hv
      · rw [if_pos hi]
        refine ⟨⟨fun _ => ⟨hu, rfl, hi⟩, fun _ => rfl⟩, fun hc => absurd hc hu, ?_, ?_⟩
        · intro v hv
          exact Option.noConfusion hv
        · intro _ _ hi2
          exact absurd hi2 hi

/-- Witness for C8: a relative uri with a local-file input and no baseurl
fails naming the missing option. -/
theorem get_url_characterization_witness :
    get_url none ("local.m3u8".toList) ("seg.ts".toList) = .error .missingBaseurl :=
  (get_url_characterization none ("local.m3u8".toList) ("seg.ts".toList)).1.mpr
    ⟨by decide, rfl, by decide⟩

theorem probeFirstFree_spec (fs : List Char → Bool) (stem ext : List Char) :
    ∀ fuel i m, i ≤ m → fs (candName stem ext m) = false →
      (∀ k, k < m → i ≤ k → fs (candName stem ext k) = true) → m - i < fuel →
      probeFirstFree fs stem ext fuel i = some (candName stem ext m) := by
  intro fuel
  induction fuel with
  | zero => intro i m h1 h2 h3 h4; omega
  | succ f ih =>
    intro i m h1 h2 h3 h4
    unfold probeFirstFree
    by_cases hi : i = m
    · subst hi
      simp [h2]
    · have hti : fs (candName stem ext i) = true := h3 i (by omega) le_rfl
      simp only [hti, if_true]
      exact ih (i + 1) m (by omega) h2 (fun k hk1 hk2 => h3 k hk1 (by omega)) (by omega)

/-- Claim C7 (confirmed): when not resuming and the computed name exists
(and its stem and extension are present, so that no panic occurs), the
args `tempfile` returns `"<stem> (<m>).<ext>"` for the first `m ≥ 1`
whose name does not exist, given enough fuel for the probe loop. -/
theorem tempfile_collision_probe (fs : List Char → Bool) (input : List Char)
    (fuel m : Nat) (stem ext : List Char)
    (hex : fs (ArgsSave.tempfileOutput input) = true)
    (hstem : rustFileStem (ArgsSave.tempfileOutput input) = some stem)
    (hext : rustExtension (ArgsSave.tempfileOutput input) = some ext)
    (hm : 1 ≤ m) (hfree : fs (candName stem ext m) = false)
    (hbusy : ∀ k, k < m → 1 ≤ k → fs (candName stem ext k) = true)
    (hfuel : m ≤ fuel) :
    ArgsSave.tempfile fs false fuel input = .ok (candName stem ext m) := by
  unfold ArgsSave.tempfile
  simp only [hex, Bool.not_false, Bool.and_self, if_true, hstem, hext]
  rw [probeFirstFree_spec fs stem ext fuel 1 m hm hfree hbusy (by omega)]

/-- Witness for C7: with `clip.mp4` and `clip (1).mp4` existing, the next
name is `clip (2).mp4`. -/
theorem tempfile_collision_probe_witness :
    ArgsSave.tempfile (fun l => l == "clip.mp4".toList || l == "clip (1).mp4".toList)
      false 3 ("clip.mp4".toList) = .ok (candName ("clip".toList) ("mp4".toList) 2) :=
  tempfile_collision_probe (fun l => l == "clip.mp4".toList || l == "clip (1).mp4".toList)
    ("clip.mp4".toList) 3 2 ("clip".toList) ("mp4".toList)
    (by decide) (by decide) (by decide) (by decide) (by decide) (by decide) (by decide)

end Vsd
